import Mathlib

/-!
Verification of the pattern-construction and sequence-matching core of the
FOAM repository (`foam/build_optimised_pattern.py`).

The Python source is shallowly embedded over exact rationals (`ℚ`): numpy
float arrays become `List ℚ`, radial-order arrays become `List ℤ`, and code
paths that raise Python exceptions become `Except String` results.  The
embedding follows the source line by line; deviations forced by the exact
arithmetic (numpy produces `inf`/`nan` on division by zero, which `ℚ` cannot
represent, so the embedding rejects zero divisors with an explicit error)
are noted at the definition concerned.  All claims proved here involve
strictly positive observational errors, so those rejected inputs never
arise in any theorem below.
-/

deriving instance DecidableEq for Except

namespace FOAM

/-- One entry of `pairs_orders` built at lines 377-391 of
`build_optimised_pattern.py`: the observed period, its best-matching
theoretical period, that period's radial order, and the chi-square of the
match. -/
structure BestPair where
  operiod : ℚ
  tperiod : ℚ
  order   : ℤ
  chisq   : ℚ
deriving DecidableEq, Repr

/-- Result triple of `chisq_longest_sequence` (line 491 of the source):
the series chi-square, the selected theoretical periods and their radial
orders. -/
structure SeqResult where
  chi2    : ℚ
  periods : List ℚ
  rorders : List ℤ
deriving DecidableEq, Repr

/-- Index and value of the first minimum of a rational list.  This embeds
the numpy idiom `np.where(a == min(a))[0][0]` used at lines 322, 384 and
435 of the source: the minimal value together with the lowest index
attaining it.  On the empty list (which makes numpy raise; every use below
is guarded) it returns `(0, 0)`. -/
def argminFirst : List ℚ → ℕ × ℚ
  | [] => (0, 0)
  | [x] => (0, x)
  | x :: y :: ys =>
    let p := argminFirst (y :: ys)
    if x ≤ p.2 then (0, x) else (p.1 + 1, p.2)

/-- First index of `v` in `l`, embedding `np.where(l == v)[0][0]`
(lines 320, 438, 439 of the source).  Returns `l.length` when `v` is
absent (the callers guard membership and raise `IndexError` otherwise). -/
def firstIdx (l : List ℚ) (v : ℚ) : ℕ :=
  match l with
  | [] => 0
  | x :: xs => if x = v then 0 else firstIdx xs v + 1

/-- `np.where(l == v)[0][0]` with the IndexError numpy raises when the
match set is empty. -/
def firstIndexOf (l : List ℚ) (v : ℚ) : Except String ℕ :=
  if v ∈ l then .ok (firstIdx l v) else .error "IndexError: index 0 is out of bounds"

/-- The chi-square array of line 381 of the source:
`[ ((period-tperiod)/operiods_errors[ii])**2 for tperiod in tperiods ]`. -/
def chisqArr (tperiods : List ℚ) (o e : ℚ) : List ℚ :=
  tperiods.map fun t => ((o - t) / e) ^ 2

/-- Best individual match for one observed period, lines 380-389 of the
source: minimise the chi-square over every theoretical period, break ties
at the lowest index (`np.where(chisqs == min(chisqs))[0]`, then `[0]`), and
record `(period, best_match, best_order, chisqs[min_ind][0])`.
A zero observational error makes numpy produce `inf`/`nan` chi-squares
instead of raising; `ℚ` cannot represent those, so the embedding rejects
that input explicitly (no claim involves zero errors). -/
def bestPairFor (tperiods : List ℚ) (orders : List ℤ) (o e : ℚ) : Except String BestPair :=
  if e = 0 then .error "ZeroDivisionError: zero observational error"
  else if tperiods = [] then .error "ValueError: min of empty array"
  else if (argminFirst (chisqArr tperiods o e)).1 < orders.length then
    .ok ⟨o, tperiods.getD (argminFirst (chisqArr tperiods o e)).1 0,
      orders.getD (argminFirst (chisqArr tperiods o e)).1 0,
      (argminFirst (chisqArr tperiods o e)).2⟩
  else .error "IndexError: orders"

/-- The `pairs_orders` list of lines 378-389 of the source: one best match
per observed period, in observation order.  Indexing
`operiods_errors[ii]` raises when the error list is shorter. -/
def pairsOrders (tperiods : List ℚ) (orders : List ℤ) :
    List ℚ → List ℚ → Except String (List BestPair)
  | [], _ => .ok []
  | _ :: _, [] => .error "IndexError: operiods_errors"
  | ob :: obs, e :: es => do
    let p ← bestPairFor tperiods orders ob e
    let rest ← pairsOrders tperiods orders obs es
    .ok (p :: rest)

/-- The direction flag of lines 403-406 of the source:
`-1` when `orders[1] == orders[0]-1` (input in increasing radial order),
`+1` otherwise.  Accessing `orders[1]` raises when fewer than two orders
exist. -/
def direction (orders : List ℤ) : Except String ℤ :=
  if 2 ≤ orders.length then
    .ok (if orders.getD 1 0 = orders.getD 0 0 - 1 then -1 else 1)
  else .error "IndexError: orders"

/-- Consecutivity test of line 415 of the source:
`abs(sett[2]) == abs(pairs_orders[ii+1][2]) + increase_or_decrease`. -/
def consecB (dir : ℤ) (a b : BestPair) : Bool :=
  |a.order| = |b.order| + dir

/-- Loop body of lines 412-424 of the source.  The loop runs over
`pairs_orders[:-1]` paired with its successor (the element at `ii+1`),
i.e. over `pairs.zip pairs.tail`; `current` is the run under
construction.  A consecutive element is appended to `current`; a break
appends the element and flushes the run.  On the last iteration
(`ii == lp-1`) the same element is appended once more and the run flushed
again. -/
def seqLoop (dir : ℤ) : List (BestPair × BestPair) → List BestPair → List (List BestPair)
  | [], _ => []
  | [(sett, nxt)] , current =>
    if consecB dir sett nxt then
      [(current ++ [sett]) ++ [sett]]
    else
      [current ++ [sett], [sett]]
  | (sett, nxt) :: rest, current =>
    if consecB dir sett nxt then
      seqLoop dir rest (current ++ [sett])
    else
      (current ++ [sett]) :: seqLoop dir rest []

/-- The `sequences` list of lines 408-424 of the source. -/
def buildSequences (pairs : List BestPair) (dir : ℤ) : List (List BestPair) :=
  seqLoop dir (pairs.zip pairs.tail) []

/-- Composition of the best-match and run-partitioning steps of
`chisq_longest_sequence` (lines 377-424), exposing the `sequences` list. -/
def sequencesOf (tperiods : List ℚ) (orders : List ℤ) (operiods operiods_errors : List ℚ) :
    Except String (List (List BestPair)) := do
  let pairs ← pairsOrders tperiods orders operiods operiods_errors
  let dir ← direction orders
  .ok (buildSequences pairs dir)

/-- `np.sum(run[:,-1])`: the sum of the per-point chi-squares of a run
(line 434 of the source). -/
def sumChi (run : List BestPair) : ℚ :=
  run.foldl (fun a p => a + p.chisq) 0

/-- Mean chi-square of a run, `np.sum(sequences[ii][:,-1])/len(sequences[ii])`
(line 434 of the source). -/
def meanChi (run : List BestPair) : ℚ :=
  sumChi run / run.length

/-- The `len_list` array of line 425 of the source. -/
def lensOf (seqs : List (List BestPair)) : List ℕ :=
  seqs.map List.length

/-- `max(len_list)` (line 426 of the source; `np.max` of a list of
lengths). -/
def maxLenOf (seqs : List (List BestPair)) : ℕ :=
  (lensOf seqs).foldl max 0

/-- `longest = np.where(len_list == max(len_list))[0]` (line 426 of the
source): the ascending indices of the maximal-length runs. -/
def longestOf (seqs : List (List BestPair)) : List ℕ :=
  (List.range seqs.length).filter fun i => (lensOf seqs).getD i 0 = maxLenOf seqs

/-- The `scores` list of line 434 of the source: mean chi-square of each
maximal-length run, in `longest` order. -/
def scoresOf (seqs : List (List BestPair)) : List ℚ :=
  (longestOf seqs).map fun i => meanChi (seqs.getD i [])

/-- Run selection of lines 425-436 of the source: take the runs of maximal
length; if unique, select it, otherwise select the first run of minimal
mean chi-square among them (`np.where(scores == min(scores))[0][0]`).
`max` of an empty sequence list raises. -/
def selectRun (seqs : List (List BestPair)) : Except String (List BestPair) :=
  if seqs = [] then .error "ValueError: max of empty sequence"
  else if (longestOf seqs).length = 1 then
    .ok (seqs.getD ((longestOf seqs).headD 0) [])
  else
    .ok (seqs.getD ((longestOf seqs).getD (argminFirst (scoresOf seqs)).1 0) [])

/-- First element of the selected run (`lseq[:,0][0]` / `lseq[:,1][0]`,
lines 438-439 of the source). -/
def headE : List BestPair → Except String BestPair
  | [] => .error "IndexError: empty sequence"
  | p :: _ => .ok p

/-- Alignment walk of lines 444-459 of the source, element `i` of the
range: `thr_ind_current = thr_ind_start + i`; negative or past-the-end
indices yield the sentinel pair `(-1, -1)`, otherwise
`(tperiods[thr_ind_current], orders[thr_ind_current])` (the latter raises
when `orders` is shorter than `tperiods`). -/
def alignAt (tperiods : List ℚ) (orders : List ℤ) (j : ℤ) : Except String (ℚ × ℤ) :=
  if j < 0 then .ok (-1, -1)
  else if (tperiods.length : ℤ) ≤ j then .ok (-1, -1)
  else if j.toNat < orders.length then
    .ok (tperiods.getD j.toNat 0, orders.getD j.toNat 0)
  else .error "IndexError: orders"

/-- The loop of lines 447-459 of the source: one `alignAt` read per
observed index. -/
def alignGo (tperiods : List ℚ) (orders : List ℤ) (start : ℤ) :
    ℕ → ℕ → Except String (List (ℚ × ℤ))
  | _, 0 => .ok []
  | i, m + 1 => do
    let pr ← alignAt tperiods orders (start + i)
    let rest ← alignGo tperiods orders start (i + 1) m
    .ok (pr :: rest)

/-- Full alignment over every observed index of the segment
(lines 441-459 of the source). -/
def align (tperiods : List ℚ) (orders : List ℤ) (start : ℤ) (n : ℕ) :
    Except String (List (ℚ × ℤ)) :=
  alignGo tperiods orders start 0 n

/-- Modelled from the spec: `generate_spacing_series` of
`foam/functions_for_gyre.py` is not part of the provided sources; §4.1 of
the spec defines it as the consecutive differences `period[i+1] - period[i]`. -/
def spacings (l : List ℚ) : List ℚ :=
  List.zipWith (fun a b => b - a) l l.tail

/-- Modelled from the spec: the squared propagated spacing errors
`err[i]^2 + err[i+1]^2` (§4.1 gives the error as the square root of this;
the chi-square below only ever uses its square, so the embedding keeps the
square to stay inside `ℚ`). -/
def spacingErrSq (errs : List ℚ) : List ℚ :=
  List.zipWith (fun a b => a ^ 2 + b ^ 2) errs errs.tail

/-- The final quality score of lines 464-471 of the source:
`np.sum(((obs_series-thr_series)/obs_series_errors)**2)/len(obs_series)`,
with the division by the propagated error squared away
(`(x/sqrt(y))^2 = x^2/y` for `y > 0`). -/
def seriesChi2 (operiods operiods_errors theo : List ℚ) : ℚ :=
  let obsSer := spacings operiods
  let thrSer := spacings theo
  let errSq := spacingErrSq operiods_errors
  ((List.zipWith (fun d e => d ^ 2 / e) (List.zipWith (fun a b => a - b) obsSer thrSer) errSq).foldl
    (· + ·) 0) / obsSer.length

/-- Strategy B, `chisq_longest_sequence` of lines 353-491 of the source.
When the theoretical list is shorter than the observed segment it returns
`(1e16, [-1,...], [-1,...])` immediately (lines 374-375); otherwise it
builds the per-observation best matches, partitions them into runs,
selects the longest (tie-broken by mean chi-square) run, aligns the full
segment by the run's first element and scores the aligned pattern. -/
def chisq_longest_sequence (tperiods : List ℚ) (orders : List ℤ)
    (operiods operiods_errors : List ℚ) : Except String SeqResult :=
  if tperiods.length < operiods.length then
    .ok ⟨10 ^ 16, List.replicate operiods.length (-1), List.replicate operiods.length (-1)⟩
  else do
    let pairs ← pairsOrders tperiods orders operiods operiods_errors
    let dir ← direction orders
    let lseq ← selectRun (buildSequences pairs dir)
    let p0 ← headE lseq
    let obsIdx ← firstIndexOf operiods p0.operiod
    let thrIdx ← firstIndexOf tperiods p0.tperiod
    let start : ℤ := (thrIdx : ℤ) - (obsIdx : ℤ)
    let aligned ← align tperiods orders start operiods.length
    .ok ⟨seriesChi2 operiods operiods_errors (aligned.map Prod.fst),
         aligned.map Prod.fst, aligned.map Prod.snd⟩

/-- Strategy A, `puls_series_from_given_puls` of lines 301-347 of the
source: locate the anchor in the observations, locate the closest
theoretical value (first occurrence on ties), slice the theoretical list
so the closest value lines up with the anchor's index, and pad with the
sentinel `-1` where the slice runs off either end. -/
def puls_series_from_given_puls (TheoIn Obs : List ℚ) (Obs_to_build_from : ℚ) :
    Except String (List ℚ) :=
  if Obs_to_build_from ∈ Obs then
    if TheoIn = [] then .error "ValueError: min of empty array"
    else
      let nth_obs := firstIdx Obs Obs_to_build_from
      let diff := TheoIn.map fun t => |t - Obs_to_build_from|
      let index := (argminFirst diff).1
      let seq1 : List ℚ :=
        if index < nth_obs then
          List.replicate (nth_obs - index) (-1) ++ TheoIn.take (index + (Obs.length - nth_obs))
        else
          (TheoIn.drop (index - nth_obs)).take Obs.length
      let seq2 : List ℚ :=
        if TheoIn.length < index + (Obs.length - nth_obs) then
          seq1 ++ List.replicate (index + (Obs.length - nth_obs) - TheoIn.length) (-1)
        else seq1
      .ok seq2
  else .error "IndexError: index 0 is out of bounds"

/-- `max(part)` with numpy's ValueError on an empty array (line 267 of the
source). -/
def listMaxE : List ℚ → Except String ℚ
  | [] => .error "ValueError: max of empty array"
  | x :: xs => .ok (xs.foldl max x)

/-- `min(part)` with numpy's ValueError on an empty array (line 279 of the
source). -/
def listMinE : List ℚ → Except String ℚ
  | [] => .error "ValueError: min of empty array"
  | x :: xs => .ok (xs.foldl min x)

/-- Python negative indexing `l[-k]` (for `output_pulsations[-2]` at
lines 261 and 275 of the source), raising IndexError when the list is too
short. -/
def nthFromEnd (l : List ℚ) (k : ℕ) : Except String ℚ :=
  if k ≤ l.length then .ok (l.getD (l.length - k) 0) else .error "IndexError"

/-- Elementwise `output_pulsations - Obs` at line 298 of the source:
numpy broadcasting of two 1-D arrays raises ValueError when their lengths
differ. -/
def npSub (a b : List ℚ) : Except String (List ℚ) :=
  if a.length = b.length then .ok (List.zipWith (fun x y => x - y) a b)
  else .error "ValueError: operands could not be broadcast together"

/-- Lines 259-263 and 271-275 of the source: the attempted removal of
already-chosen pulsations.  The source calls `np.delete(...)` but discards
its result (`np.delete` is not in place), so the candidate arrays are
never modified; the only observable effects are the exceptions the
discarded expression itself can raise (`orders[1]` and
`output_pulsations[-2]` indexing).  This embedding performs exactly those
accesses and returns no value. -/
def discardedDelete (which : String) (orders : List ℤ) (out : List ℚ) :
    Except String Unit :=
  if 0 < out.length then do
    let dir ← direction orders
    if which = "frequency" then
      if dir = -1 then do
        let _ ← nthFromEnd out 2
        .ok ()
      else .ok ()
    else
      if dir = -1 then .ok ()
      else do
        let _ ← nthFromEnd out 2
        .ok ()
  else .ok ()

/-- Per-segment pattern selection, lines 257-296 of the source: branch on
the observable, perform the (discarded) candidate filtering, convert the
segment to periods, and dispatch on the configured method.  Note that the
chi-square method (line 288) always receives the full `periods` array and
converts back to frequencies afterwards (lines 289-292).  A configured
anchor of `None` makes `np.where(Obs == None)[0][0]` raise IndexError. -/
def selectPart (freqs periods : List ℚ) (orders : List ℤ) (which method : String)
    (out part errpart : List ℚ) (amp : Option ℚ) : Except String (List ℚ) :=
  if which = "frequency" then do
    let _ ← discardedDelete "frequency" orders out
    let ObsPeriod := part.map fun x => 1 / x
    let ObsErrP :=
      if errpart.length = part.length then
        List.zipWith (fun e o => e / o ^ 2) errpart part
      else []
    if errpart.length ≠ part.length then
      .error "ValueError: operands could not be broadcast together"
    else do
    let hof ← listMaxE part
    if method = "highest_amplitude" then
      match amp with
      | some a => puls_series_from_given_puls freqs part a
      | none => .error "IndexError: index 0 is out of bounds"
    else if method = "highest_frequency" then
      puls_series_from_given_puls freqs part hof
    else if method = "chisq_longest_sequence" then do
      let r ← chisq_longest_sequence periods orders ObsPeriod ObsErrP
      .ok (r.periods.map fun x => 1 / x)
    else .error "Incorrect method to build pulsational series."
  else if which = "period" then do
    let _ ← discardedDelete "period" orders out
    let hof ← listMinE part
    if method = "highest_amplitude" then
      match amp with
      | some a => puls_series_from_given_puls periods part a
      | none => .error "IndexError: index 0 is out of bounds"
    else if method = "highest_frequency" then
      puls_series_from_given_puls periods part hof
    else if method = "chisq_longest_sequence" then do
      let r ← chisq_longest_sequence periods orders part errpart
      .ok r.periods
    else .error "Incorrect method to build pulsational series."
  else .error "Unknown observable to fit"

/-- Segment loop of lines 253-296 of the source: iterate over
`zip(Obs_pattern_parts, ObsErr_pattern_parts, highest_amp_puls)`
(truncating to the shortest, as Python `zip` does), append the gap
sentinel `0` before every segment but the first, and extend the output
with the segment's selected pulsations. -/
def assemble (freqs periods : List ℚ) (orders : List ℤ) (which method : String) :
    List (List ℚ) → List (List ℚ) → List (Option ℚ) → List ℚ → Except String (List ℚ)
  | p :: ps, e :: es, a :: as_, out => do
    let out1 := if 0 < out.length then out ++ [0] else out
    let sel ← selectPart freqs periods orders which method out1 p e a
    assemble freqs periods orders which method ps es as_ (out1 ++ sel)
  | _, _, _, out => .ok out

/-- `rescale_rotation_and_select_theoretical_pattern` of lines 196-298 of
the source, for a correctly-shaped call (the `lmfit` path of lines
148-150).  The lmfit parameter object, the asymptotic object and the two
rotation values only enter through the rescaling of line 247; they are
modelled as one injected capability `scale` (§4.2 of the spec treats the
rescaler as an injected capability), with `none` for the
`asymptotic_object is None` branch (line 249: the input frequencies are
used unchanged).  The final line subtracts the observations from the
assembled pulsations. -/
def rescale_rotation_and_select_theoretical_pattern
    (scale : Option (List ℚ → List ℚ)) (freqs_input : List ℚ) (orders : List ℤ)
    (Obs : List ℚ) (parts errparts : List (List ℚ)) (which method : String)
    (hamps : List (Option ℚ)) : Except String (List ℚ) := do
  let freqs := match scale with
    | some f => f freqs_input
    | none => freqs_input
  let periods := freqs.map fun x => 1 / x
  let out ← assemble freqs periods orders which method parts errparts hamps []
  npSub out Obs

/-- Indices of the gap markers, `np.where(Obs == 0)[0]` (line 117 of the
source). -/
def gapIndices (Obs : List ℚ) : List ℕ :=
  (List.range Obs.length).filter fun i => Obs.getD i 0 = 0

/-- Line 120 of the source: shift the `i`-th gap index down by `i` to
account for the removed zeros. -/
def adjustIdx : List ℕ → ℕ → List ℕ
  | [], _ => []
  | a :: as_, i => (a - i) :: adjustIdx as_ (i + 1)

/-- `np.split(l, cuts)` for ascending cut points: the slices
`l[0:c0], l[c0:c1], ..., l[ck:]` (lines 122-123 of the source). -/
def splitAtIndices (l : List ℚ) : List ℕ → ℕ → List (List ℚ)
  | [], prev => [l.drop prev]
  | c :: cs, prev => (l.drop prev).take (c - prev) :: splitAtIndices l cs c

/-- Observation splitting of lines 117-123 of the source: record the gap
positions, strip the zero markers from the values and (independently) from
the errors, adjust the gap indices for the removals, and split both lists
at the adjusted indices. -/
def split_pattern (Obs ObsErr : List ℚ) : List (List ℚ) × List (List ℚ) :=
  let missing := adjustIdx (gapIndices Obs) 0
  (splitAtIndices (Obs.filter fun x => x ≠ 0) missing 0,
   splitAtIndices (ObsErr.filter fun x => x ≠ 0) missing 0)

/-- Dynamic Python value, used to express the argument mismatch of the
call at lines 132-133 of the source, whose positional arguments do not
line up with the parameter list of
`rescale_rotation_and_select_theoretical_pattern` (line 196-197). -/
inductive PyVal where
  | num  (q : ℚ)
  | str  (s : String)
  | pbool (b : Bool)
  | list (xs : List PyVal)
  | none

/-- Python iterability: lists and strings iterate, numbers, booleans and
`None` do not. -/
def pyIterable : PyVal → Bool
  | .list _ => true
  | .str _ => true
  | _ => false

/-- The check Python's `zip` performs on its three arguments at line 254
of the source: each must support iteration, otherwise a TypeError is
raised naming the offending position. -/
def pyZip3Check (a b c : PyVal) : Except String Unit :=
  if ¬ pyIterable a then .error "TypeError: zip argument #1 must support iteration"
  else if ¬ pyIterable b then .error "TypeError: zip argument #2 must support iteration"
  else if ¬ pyIterable c then .error "TypeError: zip argument #3 must support iteration"
  else .ok ()

/-- The twelve formal parameters of
`rescale_rotation_and_select_theoretical_pattern` (lines 196-197 of the
source), each holding the dynamic value a call binds to it. -/
structure RescaleArgs where
  params : PyVal
  asymptotic_object : PyVal
  estimated_rotation : PyVal
  freqs_input : PyVal
  orders : PyVal
  Obs : PyVal
  ObsErr : PyVal
  Obs_pattern_parts : PyVal
  ObsErr_pattern_parts : PyVal
  which_observable : PyVal
  method_build_series : PyVal
  highest_amp_puls : PyVal

/-- The parameter binding produced by the call at lines 132-133 of the
source (the `asymptotic_object is None` branch of
`theoretical_pattern_from_dfrow`).  The call passes
`(None, asymptotic_object, estimated_rotation, freqs, Obs, ObsErr,
Obs_pattern_parts, ObsErr_pattern_parts, which_observable,
method_build_series, highest_amp_puls, False)` positionally — the
`orders` argument is missing, so every argument from the fifth onwards is
bound to the parameter one slot earlier than intended, and the trailing
`False` lands in `highest_amp_puls`. -/
def line132Call (estimated_rotation : PyVal) (freqs Obs ObsErr : List ℚ)
    (parts errparts : List (List ℚ)) (which method : String)
    (hamps : List PyVal) : RescaleArgs where
  params := .none
  asymptotic_object := .none
  estimated_rotation := estimated_rotation
  freqs_input := .list (freqs.map .num)
  orders := .list (Obs.map .num)
  Obs := .list (ObsErr.map .num)
  ObsErr := .list (parts.map fun p => .list (p.map .num))
  Obs_pattern_parts := .list (errparts.map fun p => .list (p.map .num))
  ObsErr_pattern_parts := .str which
  which_observable := .str method
  method_build_series := .list hamps
  highest_amp_puls := .pbool false

/-- Characterisation of one recorded best match (lines 380-389 of the
source): the pair records the observed period, the theoretical period and
order at some index `j`, and the chi-square at `j`; the chi-square at `j`
is minimal over all theoretical periods and every strictly smaller index
has a strictly larger chi-square (ties go to the lowest index). -/
def IsBestMatchAt (t : List ℚ) (ord : List ℤ) (o e : ℚ) (p : BestPair) : Prop :=
  ∃ j, j < t.length ∧
    p = ⟨o, t.getD j 0, ord.getD j 0, ((o - t.getD j 0) / e) ^ 2⟩ ∧
    (∀ k, k < t.length →
      ((o - t.getD j 0) / e) ^ 2 ≤ ((o - t.getD k 0) / e) ^ 2) ∧
    (∀ k, k < j →
      ((o - t.getD j 0) / e) ^ 2 < ((o - t.getD k 0) / e) ^ 2)

/-! ### List access helper lemmas -/

theorem getD_append_lt {α : Type} [Inhabited α] (l1 l2 : List α) (n : ℕ)
    (h : n < l1.length) (d : α) : (l1 ++ l2).getD n d = l1.getD n d := by
  simp [List.getD, List.getElem?_append, h]

theorem getD_append_ge {α : Type} [Inhabited α] (l1 l2 : List α) (n : ℕ)
    (h : l1.length ≤ n) (d : α) : (l1 ++ l2).getD n d = l2.getD (n - l1.length) d := by
  simp [List.getD, List.getElem?_append, Nat.not_lt.mpr h]

theorem getD_drop_add {α : Type} [Inhabited α] (l : List α) (m n : ℕ) (d : α) :
    (l.drop m).getD n d = l.getD (m + n) d := by
  simp [List.getD, List.getElem?_drop]

theorem getD_take_lt {α : Type} [Inhabited α] (l : List α) (m n : ℕ) (h : n < m) (d : α) :
    (l.take m).getD n d = l.getD n d := by
  simp [List.getD, List.getElem?_take, h]

theorem getD_replicate_lt {α : Type} [Inhabited α] (m n : ℕ) (a d : α) (h : n < m) :
    (List.replicate m a).getD n d = a := by
  simp [List.getD, List.getElem?_replicate, h]

theorem getD_map_lt {α β : Type} [Inhabited α] [Inhabited β] (f : α → β) (l : List α)
    (n : ℕ) (h : n < l.length) (d : β) (d' : α) :
    (l.map f).getD n d = f (l.getD n d') := by
  simp [List.getD, List.getElem?_map, List.getElem?_eq_getElem h]

/-! ### Specification of `argminFirst` -/

theorem argminFirst_lt_length : ∀ (l : List ℚ), l ≠ [] → (argminFirst l).1 < l.length
  | [], h => absurd rfl h
  | [_], _ => by simp [argminFirst]
  | x :: y :: ys, _ => by
    have ih := argminFirst_lt_length (y :: ys) (by simp)
    by_cases hx : x ≤ (argminFirst (y :: ys)).2
    · simp [argminFirst, hx]
    · simp only [argminFirst, if_neg hx, List.length_cons]
      exact Nat.succ_lt_succ ih

theorem argminFirst_getD : ∀ (l : List ℚ), l ≠ [] → l.getD (argminFirst l).1 0 = (argminFirst l).2
  | [], h => absurd rfl h
  | [_], _ => by simp [argminFirst]
  | x :: y :: ys, _ => by
    have ih := argminFirst_getD (y :: ys) (by simp)
    by_cases hx : x ≤ (argminFirst (y :: ys)).2
    · simp [argminFirst, hx]
    · simp only [argminFirst, if_neg hx]
      rw [List.getD_cons_succ]
      exact ih

theorem argminFirst_le : ∀ (l : List ℚ) (k : ℕ), k < l.length → (argminFirst l).2 ≤ l.getD k 0
  | [x], k, hk => by
    have : k = 0 := by simpa using Nat.lt_one_iff.mp (by simpa using hk)
    subst this
    simp [argminFirst]
  | x :: y :: ys, k, hk => by
    by_cases hx : x ≤ (argminFirst (y :: ys)).2
    · cases k with
      | zero => simp [argminFirst, hx]
      | succ k =>
        simp only [argminFirst, if_pos hx, List.getD_cons_succ]
        exact le_trans hx (argminFirst_le (y :: ys) k (Nat.lt_of_succ_lt_succ hk))
    · cases k with
      | zero =>
        simp only [argminFirst, if_neg hx, List.getD_cons_zero]
        exact le_of_lt (lt_of_not_le hx)
      | succ k =>
        simp only [argminFirst, if_neg hx, List.getD_cons_succ]
        exact argminFirst_le (y :: ys) k (Nat.lt_of_succ_lt_succ hk)

theorem argminFirst_strict : ∀ (l : List ℚ) (k : ℕ), k < (argminFirst l).1 →
    (argminFirst l).2 < l.getD k 0
  | [], k, hk => by simp [argminFirst] at hk
  | [_], k, hk => by simp [argminFirst] at hk
  | x :: y :: ys, k, hk => by
    by_cases hx : x ≤ (argminFirst (y :: ys)).2
    · simp [argminFirst, hx] at hk
    · simp only [argminFirst, if_neg hx] at hk ⊢
      cases k with
      | zero =>
        rw [List.getD_cons_zero]
        exact lt_of_not_le hx
      | succ k =>
        rw [List.getD_cons_succ]
        exact argminFirst_strict (y :: ys) k (Nat.lt_of_succ_lt_succ hk)

/-! ### Specification of `firstIdx` -/

theorem firstIdx_lt_length : ∀ (l : List ℚ) (v : ℚ), v ∈ l → firstIdx l v < l.length
  | x :: xs, v, h => by
    by_cases hx : x = v
    · simp [firstIdx, hx]
    · have hm : v ∈ xs := by
        rcases List.mem_cons.mp h with h1 | h1
        · exact absurd h1.symm hx
        · exact h1
      simp only [firstIdx, if_neg hx, List.length_cons]
      exact Nat.succ_lt_succ (firstIdx_lt_length xs v hm)

theorem firstIdx_getD : ∀ (l : List ℚ) (v : ℚ), v ∈ l → l.getD (firstIdx l v) 0 = v
  | x :: xs, v, h => by
    by_cases hx : x = v
    · simp [firstIdx, hx]
    · have hm : v ∈ xs := by
        rcases List.mem_cons.mp h with h1 | h1
        · exact absurd h1.symm hx
        · exact h1
      simp only [firstIdx, if_neg hx, List.getD_cons_succ]
      exact firstIdx_getD xs v hm

theorem firstIdx_min : ∀ (l : List ℚ) (v : ℚ) (k : ℕ), k < firstIdx l v → l.getD k 0 ≠ v
  | [], _, k, hk => by simp [firstIdx] at hk
  | x :: xs, v, k, hk => by
    by_cases hx : x = v
    · simp [firstIdx, hx] at hk
    · simp only [firstIdx, if_neg hx] at hk
      cases k with
      | zero => simpa using hx
      | succ k =>
        rw [List.getD_cons_succ]
        exact firstIdx_min xs v k (Nat.lt_of_succ_lt_succ hk)

/-! ### Per-observation best matches -/

theorem chisqArr_getD (t : List ℚ) (o e : ℚ) (k : ℕ) (hk : k < t.length) :
    (chisqArr t o e).getD k 0 = ((o - t.getD k 0) / e) ^ 2 := by
  simp only [chisqArr]
  exact getD_map_lt _ t k hk 0 0

theorem bestPairFor_ok_spec (t : List ℚ) (ord : List ℤ) (o e : ℚ) (p : BestPair)
    (h : bestPairFor t ord o e = .ok p) : IsBestMatchAt t ord o e p := by
  unfold bestPairFor at h
  split_ifs at h with h1 h2 h3
  · injection h with h
    subst h
    have hne : chisqArr t o e ≠ [] := by
      simpa [chisqArr] using h2
    have hlen : (chisqArr t o e).length = t.length := by simp [chisqArr]
    have hj : (argminFirst (chisqArr t o e)).1 < t.length := by
      rw [← hlen]; exact argminFirst_lt_length _ hne
    have hv := argminFirst_getD (chisqArr t o e) hne
    rw [chisqArr_getD t o e _ hj] at hv
    refine ⟨(argminFirst (chisqArr t o e)).1, hj, ?_, ?_, ?_⟩
    · rw [← hv]
    · intro k hk
      have hk' : k < (chisqArr t o e).length := by rwa [hlen]
      have hle := argminFirst_le (chisqArr t o e) k hk'
      rw [chisqArr_getD t o e k hk] at hle
      rw [hv]
      exact hle
    · intro k hk
      have hlt := argminFirst_strict (chisqArr t o e) k hk
      have hkt : k < t.length := lt_trans hk hj
      rw [chisqArr_getD t o e k hkt] at hlt
      rw [hv]
      exact hlt

theorem pairsOrders_ok_spec (t : List ℚ) (ord : List ℤ) :
    ∀ (op oe : List ℚ) (ps : List BestPair), pairsOrders t ord op oe = .ok ps →
      ps.length = op.length ∧
      ∀ ii, ii < ps.length →
        bestPairFor t ord (op.getD ii 0) (oe.getD ii 0) = .ok (ps.getD ii ⟨0, 0, 0, 0⟩)
  | [], oe, ps, h => by
    simp only [pairsOrders] at h
    injection h with h
    subst h
    exact ⟨rfl, fun ii hii => absurd hii (by simp)⟩
  | ob :: obs, [], ps, h => by
    simp [pairsOrders] at h
  | ob :: obs, e :: es, ps, h => by
    simp only [pairsOrders] at h
    cases hbp : bestPairFor t ord ob e with
    | error s =>
      rw [hbp] at h
      simp only [bind, Except.bind] at h
      exact Except.noConfusion h
    | ok p =>
      cases hrest : pairsOrders t ord obs es with
      | error s =>
        rw [hbp, hrest] at h
        simp only [bind, Except.bind] at h
        exact Except.noConfusion h
      | ok rest =>
        rw [hbp, hrest] at h
        simp only [bind, Except.bind] at h
        injection h with h
        subst h
        obtain ⟨hlen, hspec⟩ := pairsOrders_ok_spec t ord obs es rest hrest
        refine ⟨by simp [hlen], fun ii hii => ?_⟩
        cases ii with
        | zero => simpa using hbp
        | succ ii =>
          simp only [List.getD_cons_succ]
          exact hspec ii (by simpa using Nat.lt_of_succ_lt_succ hii)

/-- C4: in Strategy B, every per-observation best match minimises
`((observed - theoretical)/observed_error)^2` over all theoretical
periods, ties are resolved at the lowest theoretical index, and the
recorded tuple holds that theoretical period's value, its radial order and
the minimal chi-square (lines 377-391 of the source). -/
theorem best_match_argmin_spec (t : List ℚ) (ord : List ℤ) (op oe : List ℚ)
    (ps : List BestPair) (h : pairsOrders t ord op oe = .ok ps) :
    ps.length = op.length ∧
    ∀ ii, ii < ps.length →
      IsBestMatchAt t ord (op.getD ii 0) (oe.getD ii 0) (ps.getD ii ⟨0, 0, 0, 0⟩) := by
  obtain ⟨hlen, hspec⟩ := pairsOrders_ok_spec t ord op oe ps h
  exact ⟨hlen, fun ii hii => bestPairFor_ok_spec _ _ _ _ _ (hspec ii hii)⟩

/-- Witness for C4 at a concrete input: for observed period 99/10 with
error 1/10 against theoretical periods [10, 9] of orders [-4, -5], the
recorded best match is (99/10, 10, -4, 1). -/
theorem best_match_argmin_spec_app :
    ([(⟨99/10, 10, -4, 1⟩ : BestPair)]).length = [(99/10 : ℚ)].length ∧
    ∀ ii, ii < ([(⟨99/10, 10, -4, 1⟩ : BestPair)]).length →
      IsBestMatchAt [10, 9] [-4, -5] ([(99/10 : ℚ)].getD ii 0) ([(1/10 : ℚ)].getD ii 0)
        (([(⟨99/10, 10, -4, 1⟩ : BestPair)]).getD ii ⟨0, 0, 0, 0⟩) :=
  best_match_argmin_spec [10, 9] [-4, -5] [99/10] [1/10] [⟨99/10, 10, -4, 1⟩]
    (by with_unfolding_all rfl)

/-! ### C1: the short-pattern sentinel branch -/

/-- C1: whenever the theoretical period list has fewer entries than the
observed segment, Strategy B returns immediately (no error) with
matched-value and order lists of the observed segment's length containing
only the sentinel -1, and chi-square exactly 1e16 (lines 374-375 of the
source). -/
theorem chisq_short_pattern_sentinel (t : List ℚ) (ord : List ℤ) (op oe : List ℚ)
    (h : t.length < op.length) :
    chisq_longest_sequence t ord op oe =
      .ok ⟨10 ^ 16, List.replicate op.length (-1), List.replicate op.length (-1)⟩ := by
  unfold chisq_longest_sequence
  simp [h]

/-- Witness for C1 at a concrete input: one theoretical period against two
observed periods. -/
theorem chisq_short_pattern_sentinel_app :
    ([(5 : ℚ)]).length < ([(1 : ℚ), 2]).length ∧
    chisq_longest_sequence [5] [1] [1, 2] [1/10, 1/10] =
      .ok ⟨10 ^ 16, List.replicate 2 (-1), List.replicate 2 (-1)⟩ :=
  ⟨by decide, chisq_short_pattern_sentinel [5] [1] [1, 2] [1/10, 1/10] (by decide)⟩

/-! ### C9: anchor round-trip for Strategy A -/

/-- C9: if the anchor occurs in the observed segment and equals some
theoretical value exactly, Strategy A's aligned output holds exactly that
theoretical value at the anchor's observed index, and the closest-element
tie is resolved at the lowest theoretical index (lines 320-336 of the
source). -/
theorem anchor_exact_match_roundtrip (TheoIn Obs : List ℚ) (anchor : ℚ)
    (hT : anchor ∈ TheoIn) (hO : anchor ∈ Obs) :
    ∃ seq, puls_series_from_given_puls TheoIn Obs anchor = .ok seq ∧
      seq.getD (firstIdx Obs anchor) 0 = anchor ∧
      (argminFirst (TheoIn.map fun tp => |tp - anchor|)).1 = firstIdx TheoIn anchor := by
  have hTne : TheoIn ≠ [] := by rintro rfl; simp at hT
  set diff := TheoIn.map fun tp => |tp - anchor| with hdiff
  have hdne : diff ≠ [] := by simpa [hdiff] using hTne
  have hdlen : diff.length = TheoIn.length := by simp [hdiff]
  set index := (argminFirst diff).1 with hindex
  set nth := firstIdx Obs anchor with hnth
  have hilt : index < TheoIn.length := by
    rw [← hdlen]; exact argminFirst_lt_length _ hdne
  have hnlt : nth < Obs.length := firstIdx_lt_length _ _ hO
  -- the minimum of the absolute differences is zero, attained first at
  -- the first occurrence of the anchor
  have hfT : firstIdx TheoIn anchor < TheoIn.length := firstIdx_lt_length _ _ hT
  have hd0 : diff.getD (firstIdx TheoIn anchor) 0 = 0 := by
    rw [hdiff, getD_map_lt _ _ _ hfT 0 0, firstIdx_getD _ _ hT]
    simp
  have hvle : (argminFirst diff).2 ≤ 0 := by
    have := argminFirst_le diff (firstIdx TheoIn anchor) (by rwa [hdlen])
    rwa [hd0] at this
  have hvd : diff.getD index 0 = (argminFirst diff).2 := argminFirst_getD diff hdne
  have habs : diff.getD index 0 = |TheoIn.getD index 0 - anchor| := by
    rw [hdiff, getD_map_lt _ _ _ hilt 0 0]
  have hv0 : (argminFirst diff).2 = 0 := by
    refine le_antisymm hvle ?_
    rw [← hvd, habs]
    exact abs_nonneg _
  have hTidx : TheoIn.getD index 0 = anchor := by
    have h := habs.symm.trans (hvd.trans hv0)
    have := abs_eq_zero.mp h
    linarith
  have hieq : index = firstIdx TheoIn anchor := by
    rcases lt_trichotomy index (firstIdx TheoIn anchor) with hlt | heq | hgt
    · exact absurd hTidx (firstIdx_min TheoIn anchor index hlt)
    · exact heq
    · have h := argminFirst_strict diff (firstIdx TheoIn anchor) hgt
      rw [hd0, hv0] at h
      exact absurd h (lt_irrefl 0)
  -- now evaluate the constructed sequence at the anchor's index
  have hseq1 : (if index < nth then
      List.replicate (nth - index) (-1) ++ TheoIn.take (index + (Obs.length - nth))
      else (TheoIn.drop (index - nth)).take Obs.length).getD nth 0 = anchor := by
    split_ifs with hcase
    · -- sentinel prefix, then the slice `TheoIn[0 : index + (|Obs| - nth)]`
      rw [getD_append_ge _ _ _ (by rw [List.length_replicate]; omega) 0,
        List.length_replicate]
      have hsub : nth - (nth - index) = index := by omega
      rw [hsub, getD_take_lt _ _ _ (by omega) 0]
      exact hTidx
    · -- the slice `TheoIn[index - nth : index + (|Obs| - nth)]`
      rw [getD_take_lt _ _ _ hnlt 0, getD_drop_add _ _ _ 0]
      have hsub : index - nth + nth = index := by omega
      rw [hsub]
      exact hTidx
  have hlen1 : nth < (if index < nth then
      List.replicate (nth - index) (-1) ++ TheoIn.take (index + (Obs.length - nth))
      else (TheoIn.drop (index - nth)).take Obs.length).length := by
    split_ifs with hcase
    · rw [List.length_append, List.length_replicate, List.length_take]
      omega
    · rw [List.length_take, List.length_drop]
      omega
  have hrun : puls_series_from_given_puls TheoIn Obs anchor =
      .ok (if TheoIn.length < index + (Obs.length - nth) then
            (if index < nth then
              List.replicate (nth - index) (-1) ++ TheoIn.take (index + (Obs.length - nth))
              else (TheoIn.drop (index - nth)).take Obs.length) ++
            List.replicate (index + (Obs.length - nth) - TheoIn.length) (-1)
          else
            (if index < nth then
              List.replicate (nth - index) (-1) ++ TheoIn.take (index + (Obs.length - nth))
              else (TheoIn.drop (index - nth)).take Obs.length)) := by
    unfold puls_series_from_given_puls
    rw [if_pos hO, if_neg hTne]
  refine ⟨_, hrun, ?_, hieq⟩
  rcases lt_or_ge TheoIn.length (index + (Obs.length - nth)) with htrail | htrail
  · rw [if_pos htrail, getD_append_lt _ _ _ hlen1 0]
    exact hseq1
  · rw [if_neg (not_lt.mpr htrail)]
    exact hseq1

/-- Witness for C9 at a concrete input: anchor 3 occurs at index 1 of the
observed segment and equals the theoretical value at index 2. -/
theorem anchor_exact_match_roundtrip_app :
    ∃ seq, puls_series_from_given_puls [5, 4, 3, 2] [45/10, 3, 19/10] 3 = .ok seq ∧
      seq.getD (firstIdx [45/10, 3, 19/10] 3) 0 = 3 ∧
      (argminFirst (([(5 : ℚ), 4, 3, 2]).map fun tp => |tp - 3|)).1 =
        firstIdx [5, 4, 3, 2] 3 :=
  anchor_exact_match_roundtrip [5, 4, 3, 2] [45/10, 3, 19/10] 3 (by norm_num) (by norm_num)

/-! ### C2: run selection and its tie-break -/

theorem le_foldl_max_init : ∀ (l : List ℕ) (a : ℕ), a ≤ l.foldl max a
  | [], a => le_refl a
  | x :: xs, a => le_trans (le_max_left a x) (le_foldl_max_init xs (max a x))

theorem le_foldl_max_mem : ∀ (l : List ℕ) (a x : ℕ), x ∈ l → x ≤ l.foldl max a
  | y :: xs, a, x, h => by
    rcases List.mem_cons.mp h with rfl | h'
    · exact le_trans (le_max_right a x) (le_foldl_max_init xs (max a x))
    · exact le_foldl_max_mem xs (max a y) x h'

theorem foldl_max_mem_or : ∀ (l : List ℕ) (a : ℕ), l.foldl max a = a ∨ l.foldl max a ∈ l
  | [], a => Or.inl rfl
  | x :: xs, a => by
    rcases foldl_max_mem_or xs (max a x) with h | h
    · rcases max_choice a x with hm | hm
      · left
        rw [List.foldl_cons, h, hm]
      · right
        rw [List.foldl_cons, h, hm]
        exact List.mem_cons_self x xs
    · right
      exact List.mem_cons_of_mem x h

theorem foldl_max_zero_mem (l : List ℕ) (h : l ≠ []) : l.foldl max 0 ∈ l := by
  rcases foldl_max_mem_or l 0 with h0 | hm
  · cases l with
    | nil => exact absurd rfl h
    | cons x xs =>
      have hx : x ≤ 0 := by
        rw [← h0]
        exact le_foldl_max_mem _ 0 x (List.mem_cons_self x xs)
      rw [h0, ← Nat.le_zero.mp hx]
      exact List.mem_cons_self x xs
  · exact hm

theorem getD_mem {α : Type} [Inhabited α] :
    ∀ (l : List α) (i : ℕ), i < l.length → ∀ (d : α), l.getD i d ∈ l
  | x :: xs, 0, _, d => by simp
  | x :: xs, i + 1, h, d => by
    rw [List.getD_cons_succ]
    exact List.mem_cons_of_mem x (getD_mem xs i (Nat.lt_of_succ_lt_succ (by simpa using h)) d)

theorem mem_iff_getD {α : Type} [Inhabited α] :
    ∀ (l : List α) (s d : α), s ∈ l ↔ ∃ i, i < l.length ∧ l.getD i d = s
  | [], s, d => by simp
  | x :: xs, s, d => by
    constructor
    · intro h
      rcases List.mem_cons.mp h with rfl | h'
      · exact ⟨0, by simp, by simp⟩
      · obtain ⟨i, hi, hg⟩ := (mem_iff_getD xs s d).mp h'
        exact ⟨i + 1, by simpa using Nat.succ_lt_succ hi, by simpa [List.getD_cons_succ] using hg⟩
    · rintro ⟨i, hi, hg⟩
      cases i with
      | zero =>
        rw [List.getD_cons_zero] at hg
        rw [← hg]
        exact List.mem_cons_self x xs
      | succ i =>
        rw [List.getD_cons_succ] at hg
        exact List.mem_cons_of_mem x ((mem_iff_getD xs s d).mpr
          ⟨i, Nat.lt_of_succ_lt_succ (by simpa using hi), hg⟩)

theorem headD_eq_getD_zero {α : Type} [Inhabited α] (l : List α) (d : α) :
    l.headD d = l.getD 0 d := by
  cases l <;> rfl

theorem maxLen_ge (seqs : List (List BestPair)) (s : List BestPair) (hs : s ∈ seqs) :
    s.length ≤ maxLenOf seqs :=
  le_foldl_max_mem _ 0 _ (List.mem_map_of_mem List.length hs)

theorem scoresOf_getD (seqs : List (List BestPair)) (m : ℕ)
    (hm : m < (longestOf seqs).length) :
    (scoresOf seqs).getD m 0 = meanChi (seqs.getD ((longestOf seqs).getD m 0) []) := by
  unfold scoresOf
  exact getD_map_lt _ (longestOf seqs) m hm 0 0

theorem mem_longest_iff (seqs : List (List BestPair)) (i : ℕ) :
    i ∈ longestOf seqs ↔ i < seqs.length ∧ (seqs.getD i []).length = maxLenOf seqs := by
  unfold longestOf
  constructor
  · intro hi
    have h1 := List.mem_filter.mp hi
    have hir : i < seqs.length := List.mem_range.mp h1.1
    have hc : (lensOf seqs).getD i 0 = maxLenOf seqs := by
      have := h1.2
      simpa using this
    rw [lensOf, getD_map_lt List.length seqs i hir 0 []] at hc
    exact ⟨hir, hc⟩
  · rintro ⟨hir, hc⟩
    refine List.mem_filter.mpr ⟨List.mem_range.mpr hir, ?_⟩
    have : (lensOf seqs).getD i 0 = maxLenOf seqs := by
      rw [lensOf, getD_map_lt List.length seqs i hir 0 []]
      exact hc
    simpa using this

theorem longest_ne_nil (seqs : List (List BestPair)) (h : seqs ≠ []) :
    longestOf seqs ≠ [] := by
  have hm : maxLenOf seqs ∈ lensOf seqs :=
    foldl_max_zero_mem _ (by simpa [lensOf] using h)
  obtain ⟨i, hi, hg⟩ := (mem_iff_getD (lensOf seqs) (maxLenOf seqs) 0).mp hm
  have hir : i < seqs.length := by simpa [lensOf] using hi
  have : i ∈ longestOf seqs := by
    refine (mem_longest_iff seqs i).mpr ⟨hir, ?_⟩
    rw [lensOf, getD_map_lt List.length seqs i hir 0 []] at hg
    exact hg
  exact List.ne_nil_of_mem this

theorem headD_mem {α : Type} [Inhabited α] (l : List α) (d : α) (h : l ≠ []) :
    l.headD d ∈ l := by
  cases l with
  | nil => exact absurd rfl h
  | cons x xs => simp

/-- C2: the run selected for alignment attains the maximum run length and,
among all maximal-length runs, the minimal mean chi-square (sum of
per-point chi-squares divided by run length); when exactly one run attains
the maximum length, that run is selected (lines 425-436 of the source). -/
theorem selectRun_tie_break (seqs : List (List BestPair)) (r : List BestPair)
    (h : selectRun seqs = .ok r) :
    r ∈ seqs ∧
    (∀ s, s ∈ seqs → s.length ≤ r.length) ∧
    (∀ s, s ∈ seqs → s.length = r.length → meanChi r ≤ meanChi s) ∧
    (∀ s, s ∈ seqs → (∀ u, u ∈ seqs → u.length ≤ s.length) →
      (∀ u, u ∈ seqs → u.length = s.length → u = s) → r = s) := by
  unfold selectRun at h
  split_ifs at h with hemp hone
  -- in either surviving branch the selected index lies in `longest`
  all_goals injection h with h
  · -- a unique maximal-length run
    have hil : (longestOf seqs).headD 0 ∈ longestOf seqs :=
      headD_mem _ 0 (longest_ne_nil seqs hemp)
    obtain ⟨hir, hlen⟩ := (mem_longest_iff seqs _).mp hil
    subst h
    have hrmem : seqs.getD ((longestOf seqs).headD 0) [] ∈ seqs := getD_mem seqs _ hir []
    refine ⟨hrmem, ?_, ?_, ?_⟩
    · intro s hs
      rw [hlen]
      exact maxLen_ge seqs s hs
    · intro s hs hslen
      -- the index of any other maximal-length run also lies in `longest`,
      -- which is a singleton here
      obtain ⟨k, hk, hgk⟩ := (mem_iff_getD seqs s []).mp hs
      have hkl : k ∈ longestOf seqs := by
        refine (mem_longest_iff seqs k).mpr ⟨hk, ?_⟩
        rw [hgk, hslen, hlen]
      obtain ⟨m, hm, hgm⟩ := (mem_iff_getD (longestOf seqs) k 0).mp hkl
      have hm0 : m = 0 := by omega
      subst hm0
      rw [headD_eq_getD_zero, hgm, hgk]
    · intro s hs hmax huniq
      refine huniq _ hrmem ?_
      exact le_antisymm (hmax _ hrmem) (by rw [hlen]; exact maxLen_ge seqs s hs)
  · -- tie on length, broken by minimal mean chi-square
    have hne : longestOf seqs ≠ [] := longest_ne_nil seqs hemp
    have hsne : scoresOf seqs ≠ [] := by
      simpa [scoresOf] using hne
    have hslen : (scoresOf seqs).length = (longestOf seqs).length := by
      simp [scoresOf]
    have hj : (argminFirst (scoresOf seqs)).1 < (longestOf seqs).length := by
      rw [← hslen]
      exact argminFirst_lt_length _ hsne
    have hil : (longestOf seqs).getD (argminFirst (scoresOf seqs)).1 0 ∈ longestOf seqs :=
      getD_mem _ _ hj 0
    obtain ⟨hir, hlen⟩ := (mem_longest_iff seqs _).mp hil
    subst h
    have hrmem : seqs.getD ((longestOf seqs).getD (argminFirst (scoresOf seqs)).1 0) [] ∈ seqs :=
      getD_mem seqs _ hir []
    have hscoreJ : (scoresOf seqs).getD (argminFirst (scoresOf seqs)).1 0 =
        meanChi (seqs.getD ((longestOf seqs).getD (argminFirst (scoresOf seqs)).1 0) []) :=
      scoresOf_getD seqs _ hj
    refine ⟨hrmem, ?_, ?_, ?_⟩
    · intro s hs
      rw [hlen]
      exact maxLen_ge seqs s hs
    · intro s hs hslen2
      obtain ⟨k, hk, hgk⟩ := (mem_iff_getD seqs s []).mp hs
      have hkl : k ∈ longestOf seqs := by
        refine (mem_longest_iff seqs k).mpr ⟨hk, ?_⟩
        rw [hgk, hslen2, hlen]
      obtain ⟨m, hm, hgm⟩ := (mem_iff_getD (longestOf seqs) k 0).mp hkl
      have hscoreM : (scoresOf seqs).getD m 0 = meanChi s := by
        rw [scoresOf_getD seqs m hm, hgm, hgk]
      have hminle := argminFirst_le (scoresOf seqs) m (by rwa [hslen])
      have hminval := argminFirst_getD (scoresOf seqs) hsne
      rw [hscoreJ] at hminval
      rw [hscoreM] at hminle
      rw [hminval]
      exact hminle
    · intro s hs hmax huniq
      refine huniq _ hrmem ?_
      exact le_antisymm (hmax _ hrmem) (by rw [hlen]; exact maxLen_ge seqs s hs)

/-- Witness for C2 at a concrete input: two runs tie at length 1 with mean
chi-squares 5 and 3; the run with mean 3 is selected. -/
theorem selectRun_tie_break_app :
    ([(⟨2, 2, 2, 3⟩ : BestPair)] ∈ [[(⟨1, 1, 1, 5⟩ : BestPair)], [⟨2, 2, 2, 3⟩]]) ∧
    (∀ s, s ∈ [[(⟨1, 1, 1, 5⟩ : BestPair)], [⟨2, 2, 2, 3⟩]] →
      s.length ≤ ([(⟨2, 2, 2, 3⟩ : BestPair)]).length) ∧
    (∀ s, s ∈ [[(⟨1, 1, 1, 5⟩ : BestPair)], [⟨2, 2, 2, 3⟩]] →
      s.length = ([(⟨2, 2, 2, 3⟩ : BestPair)]).length →
      meanChi [⟨2, 2, 2, 3⟩] ≤ meanChi s) ∧
    (∀ s, s ∈ [[(⟨1, 1, 1, 5⟩ : BestPair)], [⟨2, 2, 2, 3⟩]] →
      (∀ u, u ∈ [[(⟨1, 1, 1, 5⟩ : BestPair)], [⟨2, 2, 2, 3⟩]] → u.length ≤ s.length) →
      (∀ u, u ∈ [[(⟨1, 1, 1, 5⟩ : BestPair)], [⟨2, 2, 2, 3⟩]] → u.length = s.length → u = s) →
      [(⟨2, 2, 2, 3⟩ : BestPair)] = s) :=
  selectRun_tie_break [[⟨1, 1, 1, 5⟩], [⟨2, 2, 2, 3⟩]] [⟨2, 2, 2, 3⟩]
    (by with_unfolding_all rfl)

/-! ### C10: the run-partitioning scan -/

theorem getLastD_map {α β : Type} (f : α → β) :
    ∀ (l : List α) (d : α), (l.map f).getLastD (f d) = f (l.getLastD d)
  | [], _ => rfl
  | x :: l, d => by
    rw [List.map_cons, List.getLastD_cons, List.getLastD_cons]
    exact getLastD_map f l x

theorem getLastD_congr {α : Type} :
    ∀ (l : List α), l ≠ [] → ∀ (d1 d2 : α), l.getLastD d1 = l.getLastD d2
  | [x], _, d1, d2 => rfl
  | x :: y :: l, _, d1, d2 => by
    rw [List.getLastD_cons d1 x (y :: l), List.getLastD_cons d2 x (y :: l)]

theorem map_fst_zip_tail : ∀ (l : List BestPair),
    (l.zip l.tail).map Prod.fst = l.dropLast
  | [] => rfl
  | [x] => rfl
  | x :: y :: l => by
    have ih := map_fst_zip_tail (y :: l)
    simp only [List.tail_cons] at ih ⊢
    rw [List.zip_cons_cons, List.map_cons, ih, List.dropLast_cons₂]

theorem map_snd_zip_tail : ∀ (l : List BestPair),
    (l.zip l.tail).map Prod.snd = l.tail
  | [] => rfl
  | [x] => rfl
  | x :: y :: l => by
    have ih := map_snd_zip_tail (y :: l)
    simp only [List.tail_cons] at ih ⊢
    rw [List.zip_cons_cons, List.map_cons, ih]

theorem getLast?_cons_of_ne_nil {α : Type} (a : α) (l : List α) (h : l ≠ []) :
    (a :: l).getLast? = l.getLast? := by
  cases l with
  | nil => exact absurd rfl h
  | cons b m => exact List.getLast?_cons_cons

theorem seqLoop_ne_nil (dir : ℤ) :
    ∀ (xs : List (BestPair × BestPair)) (current : List BestPair),
      xs ≠ [] → seqLoop dir xs current ≠ []
  | [(sett, nxt)], current, _ => by
    by_cases hc : consecB dir sett nxt <;> simp [seqLoop, hc]
  | (sett, nxt) :: y :: rest, current, _ => by
    by_cases hc : consecB dir sett nxt
    · simpa [seqLoop, hc] using seqLoop_ne_nil dir (y :: rest) (current ++ [sett]) (by simp)
    · simp [seqLoop, hc]

theorem seqLoop_join (dir : ℤ) :
    ∀ (xs : List (BestPair × BestPair)) (current : List BestPair) (d : BestPair × BestPair),
      xs ≠ [] →
      (seqLoop dir xs current).flatten = current ++ xs.map Prod.fst ++ [(xs.getLastD d).fst]
  | [(sett, nxt)], current, d, _ => by
    by_cases hc : consecB dir sett nxt <;>
      simp [seqLoop, hc, List.getLastD_cons]
  | (sett, nxt) :: y :: rest, current, d, _ => by
    have ih1 := seqLoop_join dir (y :: rest) (current ++ [sett]) (sett, nxt) (by simp)
    have ih2 := seqLoop_join dir (y :: rest) [] (sett, nxt) (by simp)
    by_cases hc : consecB dir sett nxt
    · rw [show seqLoop dir ((sett, nxt) :: y :: rest) current =
          seqLoop dir (y :: rest) (current ++ [sett]) from by simp [seqLoop, hc]]
      rw [ih1, List.getLastD_cons d (sett, nxt) (y :: rest)]
      simp
    · rw [show seqLoop dir ((sett, nxt) :: y :: rest) current =
          (current ++ [sett]) :: seqLoop dir (y :: rest) [] from by simp [seqLoop, hc]]
      rw [List.flatten_cons, ih2, List.getLastD_cons d (sett, nxt) (y :: rest)]
      simp

theorem seqLoop_last_break (dir : ℤ) :
    ∀ (xs : List (BestPair × BestPair)) (current : List BestPair) (d : BestPair × BestPair),
      xs ≠ [] →
      consecB dir (xs.getLastD d).1 (xs.getLastD d).2 = false →
      (seqLoop dir xs current).getLast? = some [(xs.getLastD d).fst]
  | [(sett, nxt)], current, d, _, hb => by
    rw [List.getLastD_cons, List.getLastD_nil] at hb ⊢
    simp [seqLoop, hb]
  | (sett, nxt) :: y :: rest, current, d, _, hb => by
    rw [List.getLastD_cons] at hb ⊢
    have hne : seqLoop dir (y :: rest) (current ++ [sett]) ≠ [] :=
      seqLoop_ne_nil dir (y :: rest) (current ++ [sett]) (by simp)
    have hne2 : seqLoop dir (y :: rest) [] ≠ [] :=
      seqLoop_ne_nil dir (y :: rest) [] (by simp)
    by_cases hc : consecB dir sett nxt
    · rw [show seqLoop dir ((sett, nxt) :: y :: rest) current =
          seqLoop dir (y :: rest) (current ++ [sett]) from by simp [seqLoop, hc]]
      exact seqLoop_last_break dir (y :: rest) (current ++ [sett]) (sett, nxt) (by simp) hb
    · rw [show seqLoop dir ((sett, nxt) :: y :: rest) current =
          (current ++ [sett]) :: seqLoop dir (y :: rest) [] from by simp [seqLoop, hc]]
      rw [getLast?_cons_of_ne_nil _ _ hne2]
      exact seqLoop_last_break dir (y :: rest) [] (sett, nxt) (by simp) hb

theorem seqLoop_last_consec (dir : ℤ) :
    ∀ (xs : List (BestPair × BestPair)) (current : List BestPair) (d : BestPair × BestPair),
      xs ≠ [] →
      consecB dir (xs.getLastD d).1 (xs.getLastD d).2 = true →
      ∃ pre, (seqLoop dir xs current).getLast? =
        some (pre ++ [(xs.getLastD d).fst, (xs.getLastD d).fst])
  | [(sett, nxt)], current, d, _, hb => by
    rw [List.getLastD_cons, List.getLastD_nil] at hb ⊢
    refine ⟨current, ?_⟩
    simp [seqLoop, hb]
  | (sett, nxt) :: y :: rest, current, d, _, hb => by
    rw [List.getLastD_cons] at hb ⊢
    have hne2 : seqLoop dir (y :: rest) [] ≠ [] :=
      seqLoop_ne_nil dir (y :: rest) [] (by simp)
    by_cases hc : consecB dir sett nxt
    · rw [show seqLoop dir ((sett, nxt) :: y :: rest) current =
          seqLoop dir (y :: rest) (current ++ [sett]) from by simp [seqLoop, hc]]
      exact seqLoop_last_consec dir (y :: rest) (current ++ [sett]) (sett, nxt) (by simp) hb
    · rw [show seqLoop dir ((sett, nxt) :: y :: rest) current =
          (current ++ [sett]) :: seqLoop dir (y :: rest) [] from by simp [seqLoop, hc]]
      rw [getLast?_cons_of_ne_nil _ _ hne2]
      exact seqLoop_last_consec dir (y :: rest) [] (sett, nxt) (by simp) hb

theorem getLastD_tail {α : Type} :
    ∀ (l : List α) (d : α), 2 ≤ l.length → l.tail.getLastD d = l.getLastD d
  | x :: y :: l, d, _ => by
    rw [List.tail_cons, List.getLastD_cons d x (y :: l)]
    exact getLastD_congr (y :: l) (by simp) d x

/-- C10 (amended): in the run-partitioning scan over N >= 2 best matches,
the runs cover exactly the first N-1 best matches in order — the final
best match is never placed in any run — and the (N-1)-th best match is
appended a second time when the scan ends: as an extra single-element run
when the last consecutivity comparison broke, and as a duplicated final
element of the last run when it held (lines 408-424 of the source). -/
theorem sequences_cover_spec (pairs : List BestPair) (dir : ℤ) (h2 : 2 ≤ pairs.length) :
    ((buildSequences pairs dir).flatten =
      pairs.dropLast ++ [pairs.dropLast.getLastD ⟨0, 0, 0, 0⟩]) ∧
    (consecB dir (pairs.dropLast.getLastD ⟨0, 0, 0, 0⟩) (pairs.getLastD ⟨0, 0, 0, 0⟩) = false →
      (buildSequences pairs dir).getLast? = some [pairs.dropLast.getLastD ⟨0, 0, 0, 0⟩]) ∧
    (consecB dir (pairs.dropLast.getLastD ⟨0, 0, 0, 0⟩) (pairs.getLastD ⟨0, 0, 0, 0⟩) = true →
      ∃ pre, (buildSequences pairs dir).getLast? =
        some (pre ++ [pairs.dropLast.getLastD ⟨0, 0, 0, 0⟩,
          pairs.dropLast.getLastD ⟨0, 0, 0, 0⟩])) := by
  have hAlen : (pairs.zip pairs.tail).length = pairs.length - 1 := by
    rw [List.length_zip, List.length_tail]
    omega
  have hAne : pairs.zip pairs.tail ≠ [] := by
    have : 0 < (pairs.zip pairs.tail).length := by omega
    exact List.length_pos.mp this
  have hfst : ((pairs.zip pairs.tail).getLastD (⟨0, 0, 0, 0⟩, ⟨0, 0, 0, 0⟩)).1 =
      pairs.dropLast.getLastD ⟨0, 0, 0, 0⟩ := by
    have h1 := getLastD_map Prod.fst (pairs.zip pairs.tail) (⟨0, 0, 0, 0⟩, ⟨0, 0, 0, 0⟩)
    rw [map_fst_zip_tail] at h1
    exact h1.symm
  have hsnd : ((pairs.zip pairs.tail).getLastD (⟨0, 0, 0, 0⟩, ⟨0, 0, 0, 0⟩)).2 =
      pairs.getLastD ⟨0, 0, 0, 0⟩ := by
    have h1 := getLastD_map Prod.snd (pairs.zip pairs.tail) (⟨0, 0, 0, 0⟩, ⟨0, 0, 0, 0⟩)
    rw [map_snd_zip_tail] at h1
    rw [← h1, getLastD_tail pairs _ h2]
  refine ⟨?_, ?_, ?_⟩
  · have hj := seqLoop_join dir (pairs.zip pairs.tail) [] (⟨0, 0, 0, 0⟩, ⟨0, 0, 0, 0⟩) hAne
    rw [map_fst_zip_tail, hfst] at hj
    simpa [buildSequences] using hj
  · intro hb
    have hl := seqLoop_last_break dir (pairs.zip pairs.tail) [] (⟨0, 0, 0, 0⟩, ⟨0, 0, 0, 0⟩)
      hAne (by rw [hfst, hsnd]; exact hb)
    rw [hfst] at hl
    simpa [buildSequences] using hl
  · intro hb
    have hl := seqLoop_last_consec dir (pairs.zip pairs.tail) [] (⟨0, 0, 0, 0⟩, ⟨0, 0, 0, 0⟩)
      hAne (by rw [hfst, hsnd]; exact hb)
    rw [hfst] at hl
    simpa [buildSequences] using hl

/-- Witness for the amended C10 at a concrete input: two consecutive best
matches produce one run ending in the duplicated first match. -/
theorem sequences_cover_spec_app :
    ((buildSequences [⟨1, 1, -4, 1⟩, ⟨2, 2, -5, 1⟩] (-1)).flatten =
      ([(⟨1, 1, -4, 1⟩ : BestPair), ⟨2, 2, -5, 1⟩]).dropLast ++
        [([(⟨1, 1, -4, 1⟩ : BestPair), ⟨2, 2, -5, 1⟩]).dropLast.getLastD ⟨0, 0, 0, 0⟩]) ∧
    (consecB (-1) (([(⟨1, 1, -4, 1⟩ : BestPair), ⟨2, 2, -5, 1⟩]).dropLast.getLastD ⟨0, 0, 0, 0⟩)
        (([(⟨1, 1, -4, 1⟩ : BestPair), ⟨2, 2, -5, 1⟩]).getLastD ⟨0, 0, 0, 0⟩) = false →
      (buildSequences [⟨1, 1, -4, 1⟩, ⟨2, 2, -5, 1⟩] (-1)).getLast? =
        some [([(⟨1, 1, -4, 1⟩ : BestPair), ⟨2, 2, -5, 1⟩]).dropLast.getLastD ⟨0, 0, 0, 0⟩]) ∧
    (consecB (-1) (([(⟨1, 1, -4, 1⟩ : BestPair), ⟨2, 2, -5, 1⟩]).dropLast.getLastD ⟨0, 0, 0, 0⟩)
        (([(⟨1, 1, -4, 1⟩ : BestPair), ⟨2, 2, -5, 1⟩]).getLastD ⟨0, 0, 0, 0⟩) = true →
      ∃ pre, (buildSequences [⟨1, 1, -4, 1⟩, ⟨2, 2, -5, 1⟩] (-1)).getLast? =
        some (pre ++ [([(⟨1, 1, -4, 1⟩ : BestPair), ⟨2, 2, -5, 1⟩]).dropLast.getLastD ⟨0, 0, 0, 0⟩,
          ([(⟨1, 1, -4, 1⟩ : BestPair), ⟨2, 2, -5, 1⟩]).dropLast.getLastD ⟨0, 0, 0, 0⟩])) :=
  sequences_cover_spec [⟨1, 1, -4, 1⟩, ⟨2, 2, -5, 1⟩] (-1) (by decide)

/-- C10 counterexample: with two best matches whose orders are
consecutive, the scan produces the single run `[p, p]` with the first
match duplicated inside it — there is no extra single-element run, contrary
to the claim that the (N-1)-th match is always appended as one.  Input:
theoretical periods [10, 9] with orders [-4, -5], observed periods
[9.9, 9.05] with errors 0.1. -/
theorem sequences_extra_singleton_counterexample :
    sequencesOf [10, 9] [-4, -5] [99/10, 181/20] [1/10, 1/10] =
      .ok [[⟨99/10, 10, -4, 1⟩, ⟨99/10, 10, -4, 1⟩]] ∧
    ∀ s, s ∈ [[(⟨99/10, 10, -4, 1⟩ : BestPair), ⟨99/10, 10, -4, 1⟩]] → s.length ≠ 1 :=
  ⟨by with_unfolding_all rfl, by
    intro s hs
    rw [List.mem_singleton.mp hs]
    decide⟩

/-! ### C5 and C3: the alignment walk -/

theorem alignAt_ok_spec (t : List ℚ) (ord : List ℤ) (j : ℤ) (pr : ℚ × ℤ)
    (h : alignAt t ord j = .ok pr) :
    pr = if 0 ≤ j ∧ j < (t.length : ℤ) then (t.getD j.toNat 0, ord.getD j.toNat 0)
      else (-1, -1) := by
  unfold alignAt at h
  split_ifs at h with h1 h2 h3
  · injection h with h
    rw [if_neg (by omega)]
    exact h.symm
  · injection h with h
    rw [if_neg (by omega)]
    exact h.symm
  · injection h with h
    rw [if_pos (by omega)]
    exact h.symm

theorem alignGo_ok_spec (t : List ℚ) (ord : List ℤ) (start : ℤ) :
    ∀ (n i : ℕ) (l : List (ℚ × ℤ)), alignGo t ord start i n = .ok l →
      l.length = n ∧
      ∀ k, k < n →
        l.getD k (0, 0) =
          if 0 ≤ start + i + k ∧ start + i + k < (t.length : ℤ) then
            (t.getD (start + i + k).toNat 0, ord.getD (start + i + k).toNat 0)
          else (-1, -1)
  | 0, i, l, h => by
    simp only [alignGo] at h
    injection h with h
    subst h
    exact ⟨rfl, fun k hk => absurd hk (by omega)⟩
  | m + 1, i, l, h => by
    simp only [alignGo] at h
    cases hpr : alignAt t ord (start + i) with
    | error s =>
      rw [hpr] at h
      simp only [bind, Except.bind] at h
      exact Except.noConfusion h
    | ok pr =>
      cases hrest : alignGo t ord start (i + 1) m with
      | error s =>
        rw [hpr, hrest] at h
        simp only [bind, Except.bind] at h
        exact Except.noConfusion h
      | ok rest =>
        rw [hpr, hrest] at h
        simp only [bind, Except.bind] at h
        injection h with h
        subst h
        obtain ⟨hlen, hspec⟩ := alignGo_ok_spec t ord start m (i + 1) rest hrest
        refine ⟨by simp [hlen], fun k hk => ?_⟩
        cases k with
        | zero =>
          rw [List.getD_cons_zero]
          have := alignAt_ok_spec t ord (start + i) pr hpr
          simpa using this
        | succ k =>
          rw [List.getD_cons_succ]
          have hkm : k < m := by omega
          have hsk := hspec k hkm
          have harith : start + (↑(i + 1) : ℤ) + (k : ℤ) = start + (i : ℤ) + (↑(k + 1) : ℤ) := by
            push_cast
            ring
          rw [harith] at hsk
          exact hsk

theorem align_ok_spec (t : List ℚ) (ord : List ℤ) (start : ℤ) (n : ℕ)
    (l : List (ℚ × ℤ)) (h : align t ord start n = .ok l) :
    l.length = n ∧
    ∀ k, k < n →
      l.getD k (0, 0) =
        if 0 ≤ start + k ∧ start + k < (t.length : ℤ) then
          (t.getD (start + k).toNat 0, ord.getD (start + k).toNat 0)
        else (-1, -1) := by
  obtain ⟨h1, h2⟩ := alignGo_ok_spec t ord start n 0 l h
  refine ⟨h1, fun k hk => ?_⟩
  have := h2 k hk
  simpa using this

theorem firstIndexOf_ok (l : List ℚ) (v : ℚ) (n : ℕ) (h : firstIndexOf l v = .ok n) :
    v ∈ l ∧ n = firstIdx l v := by
  unfold firstIndexOf at h
  split_ifs at h with hm
  · injection h with h
    exact ⟨hm, h.symm⟩

theorem chisq_ok_inversion (t : List ℚ) (ord : List ℤ) (op oe : List ℚ) (r : SeqResult)
    (hshort : ¬ t.length < op.length)
    (h : chisq_longest_sequence t ord op oe = .ok r) :
    ∃ pairs dir lseq p0 obsIdx thrIdx aligned,
      pairsOrders t ord op oe = .ok pairs ∧
      direction ord = .ok dir ∧
      selectRun (buildSequences pairs dir) = .ok lseq ∧
      headE lseq = .ok p0 ∧
      firstIndexOf op p0.operiod = .ok obsIdx ∧
      firstIndexOf t p0.tperiod = .ok thrIdx ∧
      align t ord ((thrIdx : ℤ) - (obsIdx : ℤ)) op.length = .ok aligned ∧
      r = ⟨seriesChi2 op oe (aligned.map Prod.fst), aligned.map Prod.fst,
        aligned.map Prod.snd⟩ := by
  unfold chisq_longest_sequence at h
  rw [if_neg hshort] at h
  cases h1 : pairsOrders t ord op oe with
  | error s =>
    rw [h1] at h
    simp only [bind, Except.bind] at h
    exact Except.noConfusion h
  | ok pairs =>
  rw [h1] at h
  simp only [bind, Except.bind] at h
  cases h2 : direction ord with
  | error s =>
    rw [h2] at h
    simp only [bind, Except.bind] at h
    exact Except.noConfusion h
  | ok dir =>
  rw [h2] at h
  simp only [bind, Except.bind] at h
  cases h3 : selectRun (buildSequences pairs dir) with
  | error s =>
    rw [h3] at h
    simp only [bind, Except.bind] at h
    exact Except.noConfusion h
  | ok lseq =>
  rw [h3] at h
  simp only [bind, Except.bind] at h
  cases h4 : headE lseq with
  | error s =>
    rw [h4] at h
    simp only [bind, Except.bind] at h
    exact Except.noConfusion h
  | ok p0 =>
  rw [h4] at h
  simp only [bind, Except.bind] at h
  cases h5 : firstIndexOf op p0.operiod with
  | error s =>
    rw [h5] at h
    simp only [bind, Except.bind] at h
    exact Except.noConfusion h
  | ok obsIdx =>
  rw [h5] at h
  simp only [bind, Except.bind] at h
  cases h6 : firstIndexOf t p0.tperiod with
  | error s =>
    rw [h6] at h
    simp only [bind, Except.bind] at h
    exact Except.noConfusion h
  | ok thrIdx =>
  rw [h6] at h
  simp only [bind, Except.bind] at h
  cases h7 : align t ord ((thrIdx : ℤ) - (obsIdx : ℤ)) op.length with
  | error s =>
    rw [h7] at h
    simp only [bind, Except.bind] at h
    exact Except.noConfusion h
  | ok aligned =>
  rw [h7] at h
  simp only [bind, Except.bind] at h
  injection h with h
  exact ⟨pairs, dir, lseq, p0, obsIdx, thrIdx, aligned, rfl, rfl, h3, h4, h5, h6, h7, h.symm⟩

/-- C5: in Strategy B's alignment step (non-short branch), with the offset
fixed by the selected run's first element — the first index of its
observed value in the observed segment and the first index of its matched
theoretical value in the theoretical list — every observed index `i` is
assigned the theoretical period and order at theoretical index
`offset + i`, and every position whose theoretical index is below 0 or
at/beyond the theoretical list length is assigned the sentinel pair
`(-1, -1)` (lines 438-459 of the source). -/
theorem alignment_offset_spec (t : List ℚ) (ord : List ℤ) (op oe : List ℚ) (r : SeqResult)
    (hshort : ¬ t.length < op.length)
    (h : chisq_longest_sequence t ord op oe = .ok r) :
    ∃ pairs dir lseq p0,
      pairsOrders t ord op oe = .ok pairs ∧
      direction ord = .ok dir ∧
      selectRun (buildSequences pairs dir) = .ok lseq ∧
      headE lseq = .ok p0 ∧
      p0.operiod ∈ op ∧ p0.tperiod ∈ t ∧
      r.periods.length = op.length ∧
      r.rorders.length = op.length ∧
      ∀ i, i < op.length →
        (r.periods.getD i 0, r.rorders.getD i 0) =
          if 0 ≤ (firstIdx t p0.tperiod : ℤ) - (firstIdx op p0.operiod : ℤ) + i ∧
              (firstIdx t p0.tperiod : ℤ) - (firstIdx op p0.operiod : ℤ) + i < (t.length : ℤ) then
            (t.getD ((firstIdx t p0.tperiod : ℤ) - (firstIdx op p0.operiod : ℤ) + i).toNat 0,
             ord.getD ((firstIdx t p0.tperiod : ℤ) - (firstIdx op p0.operiod : ℤ) + i).toNat 0)
          else (-1, -1) := by
  obtain ⟨pairs, dir, lseq, p0, obsIdx, thrIdx, aligned, h1, h2, h3, h4, h5, h6, h7, hr⟩ :=
    chisq_ok_inversion t ord op oe r hshort h
  obtain ⟨hmo, ho⟩ := firstIndexOf_ok op p0.operiod obsIdx h5
  obtain ⟨hmt, ht⟩ := firstIndexOf_ok t p0.tperiod thrIdx h6
  subst ho
  subst ht
  obtain ⟨hal, hspec⟩ := align_ok_spec t ord _ op.length aligned h7
  subst hr
  refine ⟨pairs, dir, lseq, p0, h1, h2, h3, h4, hmo, hmt, by simp [hal], by simp [hal],
    fun i hi => ?_⟩
  have hia : i < aligned.length := by rwa [hal]
  have hfst := getD_map_lt Prod.fst aligned i hia 0 (0, 0)
  have hsnd := getD_map_lt Prod.snd aligned i hia 0 (0, 0)
  show ((aligned.map Prod.fst).getD i 0, (aligned.map Prod.snd).getD i 0) = _
  rw [hfst, hsnd, Prod.mk.eta, hspec i hi]

/-- Witness for C5 at a concrete input: theoretical periods [10, 9, 8] at
orders [-3, -4, -5] against observed segment [9.9, 8.9] with errors 0.1;
the selected run anchors observed index 0 to theoretical index 0 and the
walk reads off ([10, 9], [-3, -4]). -/
theorem alignment_offset_spec_app :
    ∃ pairs dir lseq p0,
      pairsOrders [10, 9, 8] [-3, -4, -5] [99/10, 89/10] [1/10, 1/10] = .ok pairs ∧
      direction [-3, -4, -5] = .ok dir ∧
      selectRun (buildSequences pairs dir) = .ok lseq ∧
      headE lseq = .ok p0 ∧
      p0.operiod ∈ [(99/10 : ℚ), 89/10] ∧ p0.tperiod ∈ [(10 : ℚ), 9, 8] ∧
      ([(10 : ℚ), 9]).length = ([(99/10 : ℚ), 89/10]).length ∧
      ([(-3 : ℤ), -4]).length = ([(99/10 : ℚ), 89/10]).length ∧
      ∀ i, i < ([(99/10 : ℚ), 89/10]).length →
        (([(10 : ℚ), 9]).getD i 0, ([(-3 : ℤ), -4]).getD i 0) =
          if 0 ≤ (firstIdx [10, 9, 8] p0.tperiod : ℤ) -
                (firstIdx [99/10, 89/10] p0.operiod : ℤ) + i ∧
              (firstIdx [10, 9, 8] p0.tperiod : ℤ) -
                (firstIdx [99/10, 89/10] p0.operiod : ℤ) + i < (([(10 : ℚ), 9, 8]).length : ℤ) then
            (([(10 : ℚ), 9, 8]).getD ((firstIdx [10, 9, 8] p0.tperiod : ℤ) -
                (firstIdx [99/10, 89/10] p0.operiod : ℤ) + i).toNat 0,
             ([(-3 : ℤ), -4, -5]).getD ((firstIdx [10, 9, 8] p0.tperiod : ℤ) -
                (firstIdx [99/10, 89/10] p0.operiod : ℤ) + i).toNat 0)
          else (-1, -1) :=
  alignment_offset_spec [10, 9, 8] [-3, -4, -5] [99/10, 89/10] [1/10, 1/10]
    ⟨0, [10, 9], [-3, -4]⟩ (by decide) (by with_unfolding_all rfl)

/-- C3 counterexample: with strictly monotonic but non-consecutive orders
[1, 3, 5] (theoretical periods [10, 9, 8]) and observed segment
[9.1, 8.1] with positive errors 0.1, the returned matched radial orders
are [3, 5]: the two adjacent non-sentinel orders differ by 2, not by the
step ±1 the claim requires. -/
theorem matched_orders_step_counterexample :
    chisq_longest_sequence [10, 9, 8] [1, 3, 5] [91/10, 81/10] [1/10, 1/10] =
      .ok ⟨0, [9, 8], [3, 5]⟩ ∧
    ((1 : ℤ) < 3 ∧ (3 : ℤ) < 5) ∧
    ((0 : ℚ) < 1/10) ∧
    ¬((5 : ℤ) - 3 = 1 ∨ (5 : ℤ) - 3 = -1) :=
  ⟨by with_unfolding_all rfl, by decide, by norm_num, by decide⟩

/-- C3 (amended): if the theoretical pattern's radial orders form a
consecutive sequence of constant step `s` with `s = 1` or `s = -1` and
never equal the sentinel value -1, the orders list has the theoretical
list's length and the observational errors are positive, then in any
result of Strategy B any two adjacent non-sentinel radial orders differ by
exactly `s` (lines 444-459 of the source; the short-pattern branch returns
only sentinels and satisfies the property vacuously). -/
theorem matched_orders_consecutive_step (t : List ℚ) (ord : List ℤ) (op oe : List ℚ)
    (r : SeqResult) (s : ℤ)
    (hs : s = 1 ∨ s = -1)
    (hstep : ∀ i, i + 1 < ord.length → ord.getD (i + 1) 0 - ord.getD i 0 = s)
    (hnosent : (-1 : ℤ) ∉ ord)
    (hlen : ord.length = t.length)
    (hpos : ∀ e, e ∈ oe → 0 < e)
    (h : chisq_longest_sequence t ord op oe = .ok r) :
    ∀ i, i + 1 < r.rorders.length →
      r.rorders.getD i 0 ≠ -1 → r.rorders.getD (i + 1) 0 ≠ -1 →
      r.rorders.getD (i + 1) 0 - r.rorders.getD i 0 = s := by
  by_cases hshort : t.length < op.length
  · -- the short-pattern branch returns only sentinels
    unfold chisq_longest_sequence at h
    rw [if_pos hshort] at h
    injection h with h
    subst h
    intro i hi hni _
    exfalso
    apply hni
    have hlt : i < op.length := by
      simpa using Nat.lt_of_succ_lt hi
    show (List.replicate op.length (-1 : ℤ)).getD i 0 = -1
    exact getD_replicate_lt op.length i (-1) 0 hlt
  · obtain ⟨pairs, dir, lseq, p0, obsIdx, thrIdx, aligned, _, _, _, _, _, _, h7, hr⟩ :=
      chisq_ok_inversion t ord op oe r hshort h
    obtain ⟨hal, hspec⟩ := align_ok_spec t ord _ op.length aligned h7
    subst hr
    intro i hi hni hni1
    have hilen : i + 1 < op.length := by
      simpa [hal] using hi
    have hia : i < aligned.length := by omega
    have hia1 : i + 1 < aligned.length := by omega
    have hvi : (aligned.map Prod.snd).getD i 0 = (aligned.getD i (0, 0)).2 :=
      getD_map_lt Prod.snd aligned i hia 0 (0, 0)
    have hvi1 : (aligned.map Prod.snd).getD (i + 1) 0 = (aligned.getD (i + 1) (0, 0)).2 :=
      getD_map_lt Prod.snd aligned (i + 1) hia1 0 (0, 0)
    rw [show (SeqResult.mk (seriesChi2 op oe (aligned.map Prod.fst)) (aligned.map Prod.fst)
      (aligned.map Prod.snd)).rorders = aligned.map Prod.snd from rfl] at hni hni1 ⊢
    rw [hvi] at hni
    rw [hvi1] at hni1
    rw [hvi, hvi1]
    set start : ℤ := (thrIdx : ℤ) - (obsIdx : ℤ) with hstart
    have hspi := hspec i (by omega)
    have hspi1 := hspec (i + 1) hilen
    by_cases hri : 0 ≤ start + i ∧ start + i < (t.length : ℤ)
    · by_cases hri1 : 0 ≤ start + (i + 1 : ℕ) ∧ start + (i + 1 : ℕ) < (t.length : ℤ)
      · rw [hspi, if_pos hri]
        rw [hspi1, if_pos hri1]
        have htn : (start + (i + 1 : ℕ)).toNat = (start + i).toNat + 1 := by
          push_cast
          omega
        rw [htn]
        refine hstep (start + i).toNat ?_
        rw [hlen]
        omega
      · exfalso
        apply hni1
        rw [hspi1, if_neg hri1]
    · exfalso
      apply hni
      rw [hspi, if_neg hri]

/-- Witness for the amended C3 at a concrete input: theoretical periods
[4, 3, 2] with consecutive orders [-6, -7, -8] (step -1) against observed
segment [3.1, 2.1] with errors 0.1; the matched orders [-7, -8] step by
exactly -1. -/
theorem matched_orders_consecutive_step_app :
    (([(-7 : ℤ), -8]).getD 0 0 ≠ -1 ∧ ([(-7 : ℤ), -8]).getD 1 0 ≠ -1) ∧
    ([(-7 : ℤ), -8]).getD 1 0 - ([(-7 : ℤ), -8]).getD 0 0 = -1 :=
  ⟨⟨by decide, by decide⟩,
    matched_orders_consecutive_step [4, 3, 2] [-6, -7, -8] [31/10, 21/10] [1/10, 1/10]
      ⟨0, [3, 2], [-7, -8]⟩ (-1) (by decide)
      (by
        intro i hi
        have hi2 : i < 2 := by
          simp only [List.length_cons, List.length_nil] at hi
          omega
        interval_cases i <;> decide)
      (by decide) rfl
      (by
        intro e he
        simp only [List.mem_cons, List.not_mem_nil, or_false] at he
        rcases he with rfl | rfl <;> norm_num)
      (by with_unfolding_all rfl)
      0 (by decide) (by decide) (by decide)⟩

/-! ### C6, C7, C8: PatternAssembler bugs -/

/-- C6 fails on the code: the `np.delete` calls at lines 261, 263, 273 and
275 of the source discard their results (`np.delete` is not in place), so
the candidate set is never filtered.  With theoretical frequencies
[1, 1/2, 1/3, 1/4] (periods [1, 2, 3, 4], orders [-1..-4], period
observable, chi-square method) and two identical observed segments
[2.9, 4.1] with errors 0.1, the first segment claims periods 3 and 4, and
the second segment selects the very same periods again: the assembled
output is [3, 4, 0, 3, 4], where under the claimed filtering the second
segment's candidate set would have been empty (every period <= max of the
claimed output would be removed) and all-sentinel output would result. -/
theorem claimed_pulsations_not_excluded :
    assemble [1, 1/2, 1/3, 1/4] (([(1 : ℚ), 1/2, 1/3, 1/4]).map fun x => 1/x)
      [-1, -2, -3, -4] "period" "chisq_longest_sequence"
      [[29/10, 41/10], [29/10, 41/10]] [[1/10, 1/10], [1/10, 1/10]]
      [Option.none, Option.none] [] = .ok [3, 4, 0, 3, 4] ∧
    ([(3 : ℚ), 4, 0, 3, 4]).take 2 = ([(3 : ℚ), 4, 0, 3, 4]).drop 3 :=
  ⟨by with_unfolding_all rfl, rfl⟩

/-- C7 fails on the code: the call of
`rescale_rotation_and_select_theoretical_pattern` at lines 132-133 of the
source (the fixed-rotation path) omits the `orders` argument, so every
later positional argument binds one parameter too early: the function's
`Obs_pattern_parts` receives the error segments, its
`ObsErr_pattern_parts` receives the observable name (a string), its
`which_observable` receives the method name, and its `highest_amp_puls`
receives the trailing `False`.  The `zip` at line 254 then raises
TypeError (a Bool does not support iteration) instead of selecting any
pattern. -/
theorem fixed_rotation_call_type_error (rot : PyVal) (freqs Obs ObsErr : List ℚ)
    (parts errparts : List (List ℚ)) (which method : String) (hamps : List PyVal) :
    pyZip3Check
      (line132Call rot freqs Obs ObsErr parts errparts which method hamps).Obs_pattern_parts
      (line132Call rot freqs Obs ObsErr parts errparts which method hamps).ObsErr_pattern_parts
      (line132Call rot freqs Obs ObsErr parts errparts which method hamps).highest_amp_puls =
      .error "TypeError: zip argument #3 must support iteration" :=
  rfl

/-- C8 fails on the code: with observed pattern [0.9, 1.9, 0, 3.9, 8.1]
(gap marker at position 2) and errors [0.1, 0.1, 0, 0.1, 0.1], the
splitting of lines 117-123 produces the segments [[0.9, 1.9], [3.9, 8.1]],
and the assembly loop of lines 253-296 does build the 5-slot output
[1, 2, 0, 4, 8] with the sentinel 0 at the gap's position and two real
values on each side — but the return at line 298 subtracts the
gap-stripped 4-element observation array from the 5-element assembled
list, and numpy broadcasting raises ValueError; no residual vector is
returned for any gapped pattern. -/
theorem gap_broadcast_value_error :
    split_pattern [9/10, 19/10, 0, 39/10, 81/10] [1/10, 1/10, 0, 1/10, 1/10] =
      ([[9/10, 19/10], [39/10, 81/10]], [[1/10, 1/10], [1/10, 1/10]]) ∧
    assemble [1, 1/2, 1/4, 1/8, 1/16] (([(1 : ℚ), 1/2, 1/4, 1/8, 1/16]).map fun x => 1/x)
      [-1, -2, -3, -4, -5] "period" "chisq_longest_sequence"
      [[9/10, 19/10], [39/10, 81/10]] [[1/10, 1/10], [1/10, 1/10]]
      [Option.none, Option.none] [] = .ok [1, 2, 0, 4, 8] ∧
    rescale_rotation_and_select_theoretical_pattern (Option.some (fun l => l))
      [1, 1/2, 1/4, 1/8, 1/16] [-1, -2, -3, -4, -5]
      (([(9/10 : ℚ), 19/10, 0, 39/10, 81/10]).filter fun x => x ≠ 0)
      [[9/10, 19/10], [39/10, 81/10]] [[1/10, 1/10], [1/10, 1/10]]
      "period" "chisq_longest_sequence" [Option.none, Option.none] =
      .error "ValueError: operands could not be broadcast together" :=
  ⟨by with_unfolding_all rfl, by with_unfolding_all rfl, by with_unfolding_all rfl⟩

end FOAM
